import Mathlib

/-!
Verification of the curve-editor core of `comfyui_custom_sigma_editor`
(`src/js/extension.js`), as a shallow embedding in Lean 4.

Numbers: the JavaScript source computes with IEEE doubles; the embedding
uses exact rationals (`ℚ`) for all arithmetic the claims depend on, and
exact reals (`ℝ`) for the preset-generator formulas that involve
transcendental functions (`Math.pow`, `Math.exp`, `Math.sqrt`).
The one square root used by the spline sampler
(`Math.sqrt (Math.hypot dx dy)` inside `tj`) is irrational in general, so
the sampler is parametrised by an arbitrary function `sq : ℚ → ℚ → ℚ`
standing for `fun dx dy => Math.sqrt (Math.hypot dx dy)`; theorems assume
of `sq` only properties that the real function has (`sq 0 0 = 0`,
positivity off zero), so they hold in particular for the real one.
-/

namespace SigmaEditor

/-- A control point `{x, y}` as stored in `this.points`. -/
structure Point where
  x : ℚ
  y : ℚ
deriving DecidableEq, Repr

instance : Inhabited Point := ⟨⟨0, 0⟩⟩

/-- `Math.max(a, b)` on (non-NaN) numbers: the larger argument. -/
def jmax (a b : ℚ) : ℚ := if a ≤ b then b else a

/-- `Math.min(a, b)` on (non-NaN) numbers: the smaller argument. -/
def jmin (a b : ℚ) : ℚ := if a ≤ b then a else b

/-- `Math.abs v`. -/
def jabs (v : ℚ) : ℚ := if 0 ≤ v then v else -v

/-- `Math.max(0, Math.min(1, v))`. -/
def clamp01 (v : ℚ) : ℚ := jmax 0 (jmin 1 v)

theorem jmax_eq_max (a b : ℚ) : jmax a b = max a b := by
  unfold jmax
  split
  · exact (max_eq_right (by assumption)).symm
  · exact (max_eq_left (le_of_not_le (by assumption))).symm

theorem jmin_eq_min (a b : ℚ) : jmin a b = min a b := by
  unfold jmin
  split
  · exact (min_eq_left (by assumption)).symm
  · exact (min_eq_right (le_of_not_le (by assumption))).symm

theorem jabs_eq_abs (v : ℚ) : jabs v = |v| := by
  unfold jabs
  split
  · exact (abs_of_nonneg (by assumption)).symm
  · exact (abs_of_neg (lt_of_not_le (by assumption))).symm

theorem clamp01_nonneg (v : ℚ) : 0 ≤ clamp01 v := by
  rw [clamp01, jmax_eq_max]; exact le_max_left _ _

theorem clamp01_le_one (v : ℚ) : clamp01 v ≤ 1 := by
  rw [clamp01, jmax_eq_max, jmin_eq_min]
  exact max_le (by norm_num) (min_le_left _ _)

theorem clamp01_of_mem (v : ℚ) (h0 : 0 ≤ v) (h1 : v ≤ 1) : clamp01 v = v := by
  rw [clamp01, jmax_eq_max, jmin_eq_min, min_eq_right h1, max_eq_right h0]

/-- The coordinate-wise clamp applied in `_ensureValidPoints`'s `.map`. -/
def clampPoint (p : Point) : Point := ⟨clamp01 p.x, clamp01 p.y⟩

/-- The default two-point set `[{x:0,y:1},{x:1,y:0}]`. -/
def defaultPoints : List Point := [⟨0, 1⟩, ⟨1, 0⟩]

/-- The key order used by `.sort((a, b) => a.x - b.x)`: compare by `x`. -/
def ple (a b : Point) : Prop := a.x ≤ b.x

/-- Strict `x`-order, used to state the ordering invariant. -/
def plt (a b : Point) : Prop := a.x < b.x

instance : DecidableRel ple := fun a b => inferInstanceAs (Decidable (a.x ≤ b.x))

instance : DecidableRel plt := fun a b => inferInstanceAs (Decidable (a.x < b.x))

instance : IsTotal Point ple := ⟨fun a b => le_total a.x b.x⟩

instance : IsTrans Point ple := ⟨fun _ _ _ hab hbc => le_trans hab hbc⟩

instance : IsTrans Point plt := ⟨fun _ _ _ hab hbc => lt_trans hab hbc⟩

/-- `this.points.map(p => ({x: clamp(p.x), y: clamp(p.y)}))`. -/
def clampPoints (l : List Point) : List Point := l.map clampPoint

/-- `this.points.sort((a, b) => a.x - b.x)`: JavaScript's `Array.prototype.sort`
is stable, so it is modelled by the (stable) insertion sort on the key order. -/
def sortPoints (l : List Point) : List Point := l.insertionSort ple

/-- Tail worker for the duplicate-`x` filter: the JS filter callback compares
each element with the element at the previous index of the array being
filtered (`arr[idx - 1]`), whether or not that element was kept. -/
def dedupXAux (prev : Point) : List Point → List Point
  | [] => []
  | q :: rest => if q.x = prev.x then dedupXAux q rest else q :: dedupXAux q rest

/-- `points.filter((pt, idx, arr) => idx === 0 || pt.x !== arr[idx-1].x)`. -/
def dedupX : List Point → List Point
  | [] => []
  | p :: rest => p :: dedupXAux p rest

/-- `this.points[0].x = 0` (mutation of the first element's `x`). -/
def setFirstX (v : ℚ) : List Point → List Point
  | [] => []
  | p :: rest => ⟨v, p.y⟩ :: rest

/-- `this.points[this.points.length - 1].x = 1` (mutation of the last
element's `x`). -/
def setLastX (v : ℚ) : List Point → List Point
  | [] => []
  | [p] => [⟨v, p.y⟩]
  | p :: q :: rest => p :: setLastX v (q :: rest)

/-- The endpoint pinning performed by `_ensureValidPoints`, in source order:
first `points[0].x = 0`, then `points[length-1].x = 1`. -/
def pinEnds (l : List Point) : List Point := setLastX 1 (setFirstX 0 l)

/-- The clamp → sort → duplicate-filter stages of `_ensureValidPoints`
(after the initial degenerate-input reset). -/
def filteredPoints (l : List Point) : List Point :=
  dedupX (sortPoints (clampPoints (if l.length < 2 then defaultPoints else l)))

/-- `_ensureValidPoints` as a pure function of `this.points`: reset degenerate
input to the default, clamp, stable-sort by `x`, drop duplicate `x`
(keeping the first), pin the endpoints' `x` to `0` and `1`, and reset to the
default again if fewer than 2 points remain. -/
def ensureValidPoints (l : List Point) : List Point :=
  let pinned := pinEnds (filteredPoints l)
  if pinned.length < 2 then defaultPoints else pinned

/-- Every coordinate lies in `[0,1]` (invariant 1 of the spec's data model). -/
def Bounded (l : List Point) : Prop :=
  ∀ p ∈ l, 0 ≤ p.x ∧ p.x ≤ 1 ∧ 0 ≤ p.y ∧ p.y ≤ 1

/-- The sequence is strictly increasing in `x` (invariants 2–3). -/
def StrictX (l : List Point) : Prop := l.Chain' plt

/-- A valid `ControlPointSet`: coordinates clamped, strictly increasing in
`x`, first `x` exactly `0`, last `x` exactly `1`, and at least two points. -/
def Valid (l : List Point) : Prop :=
  Bounded l ∧ StrictX l ∧ (l.getD 0 default).x = 0 ∧
    (l.getLast?.getD default).x = 1 ∧ 2 ≤ l.length

instance (l : List Point) : Decidable (Bounded l) :=
  inferInstanceAs (Decidable (∀ p ∈ l, 0 ≤ p.x ∧ p.x ≤ 1 ∧ 0 ≤ p.y ∧ p.y ≤ 1))

/-- Executable check that a point list is strictly increasing in `x`. -/
def strictXB : List Point → Bool
  | [] => true
  | [_] => true
  | p :: q :: rest => (decide (p.x < q.x) && strictXB (q :: rest) : Bool)

theorem strictXB_iff : ∀ l : List Point, strictXB l = true ↔ l.Chain' plt
  | [] => by simp [strictXB]
  | [p] => by simp [strictXB]
  | p :: q :: r => by
    rw [List.chain'_cons, ← strictXB_iff (q :: r)]
    simp [strictXB, plt]

instance (l : List Point) : Decidable (StrictX l) :=
  decidable_of_iff _ (strictXB_iff l)

instance (l : List Point) : Decidable (Valid l) :=
  inferInstanceAs (Decidable (Bounded l ∧ StrictX l ∧ (l.getD 0 default).x = 0 ∧
    (l.getLast?.getD default).x = 1 ∧ 2 ≤ l.length))

example : ensureValidPoints [] = defaultPoints := by decide
example : ensureValidPoints [⟨mkRat 3 4, 2⟩, ⟨mkRat 1 4, mkRat 1 2⟩, ⟨mkRat 3 4, 0⟩] =
    [⟨0, mkRat 1 2⟩, ⟨1, 1⟩] := by decide
example : Valid (ensureValidPoints [⟨mkRat 3 4, 2⟩, ⟨mkRat 1 4, mkRat 1 2⟩, ⟨mkRat 3 4, 0⟩]) := by
  decide
example : ensureValidPoints [⟨mkRat 1 2, 0⟩, ⟨mkRat 1 2, 1⟩] = defaultPoints := by decide
example : Valid defaultPoints := by decide

/-! ### Lemmas about the validation pipeline -/

theorem clampPoint_bounded (p : Point) :
    0 ≤ (clampPoint p).x ∧ (clampPoint p).x ≤ 1 ∧
      0 ≤ (clampPoint p).y ∧ (clampPoint p).y ≤ 1 :=
  ⟨clamp01_nonneg _, clamp01_le_one _, clamp01_nonneg _, clamp01_le_one _⟩

theorem bounded_clampPoints (l : List Point) : Bounded (clampPoints l) := by
  intro p hp
  rcases List.mem_map.1 hp with ⟨q, _, rfl⟩
  exact clampPoint_bounded q

theorem clampPoint_of_bounded {p : Point} (h1 : 0 ≤ p.x) (h2 : p.x ≤ 1)
    (h3 : 0 ≤ p.y) (h4 : p.y ≤ 1) : clampPoint p = p := by
  unfold clampPoint
  cases p
  simp only [Point.mk.injEq]
  exact ⟨clamp01_of_mem _ h1 h2, clamp01_of_mem _ h3 h4⟩

theorem clampPoints_of_bounded {l : List Point} (h : Bounded l) : clampPoints l = l := by
  unfold clampPoints
  induction l with
  | nil => rfl
  | cons p rest ih =>
    rcases h p (List.mem_cons_self p rest) with ⟨h1, h2, h3, h4⟩
    rw [List.map_cons, ih (fun q hq => h q (List.mem_cons_of_mem p hq)),
      clampPoint_of_bounded h1 h2 h3 h4]

theorem sortPoints_perm (l : List Point) : List.Perm (sortPoints l) l :=
  List.perm_insertionSort ple l

theorem sorted_sortPoints (l : List Point) : List.Sorted ple (sortPoints l) :=
  List.sorted_insertionSort ple l

theorem sortPoints_of_sorted {l : List Point} (h : List.Sorted ple l) :
    sortPoints l = l :=
  h.insertionSort_eq

theorem chain'_plt_sorted {l : List Point} (h : l.Chain' plt) : List.Sorted ple l := by
  have hp : l.Pairwise plt := (List.chain'_iff_pairwise).1 h
  exact hp.imp fun hab => le_of_lt hab

theorem mem_dedupXAux {p : Point} : ∀ {prev : Point} {l : List Point},
    p ∈ dedupXAux prev l → p ∈ l := by
  intro prev l
  induction l generalizing prev with
  | nil => intro h; exact absurd h (List.not_mem_nil p)
  | cons q rest ih =>
    intro h
    unfold dedupXAux at h
    by_cases hq : q.x = prev.x
    · rw [if_pos hq] at h
      exact List.mem_cons_of_mem q (ih h)
    · rw [if_neg hq] at h
      rcases List.mem_cons.1 h with h1 | h1
      · exact h1 ▸ List.mem_cons_self q rest
      · exact List.mem_cons_of_mem q (ih h1)

theorem mem_dedupX {p : Point} {l : List Point} (h : p ∈ dedupX l) : p ∈ l := by
  cases l with
  | nil => exact absurd h (List.not_mem_nil p)
  | cons q rest =>
    rcases List.mem_cons.1 h with h1 | h1
    · exact h1 ▸ List.mem_cons_self q rest
    · exact List.mem_cons_of_mem q (mem_dedupXAux h1)

theorem chain'_dedupXAux : ∀ (l : List Point) (prev : Point),
    List.Sorted ple l → (∀ q ∈ l, prev.x ≤ q.x) →
    (prev :: dedupXAux prev l).Chain' plt
  | [], prev, _, _ => List.chain'_singleton prev
  | q :: rest, prev, hs, hge => by
    rcases List.sorted_cons.1 hs with ⟨hq, hrest⟩
    have hge' : ∀ r ∈ rest, q.x ≤ r.x := hq
    have hrec := chain'_dedupXAux rest q hrest hge'
    unfold dedupXAux
    by_cases hx : q.x = prev.x
    · rw [if_pos hx]
      rcases List.chain'_cons'.1 hrec with ⟨hhead, htail⟩
      refine List.chain'_cons'.2 ⟨?_, htail⟩
      intro r hr
      have := hhead r hr
      unfold plt at this ⊢
      rwa [← hx]
    · rw [if_neg hx]
      refine List.chain'_cons.2 ⟨?_, hrec⟩
      exact lt_of_le_of_ne (hge q (List.mem_cons_self q rest)) (fun h => hx h.symm)

theorem chain'_dedupX {l : List Point} (h : List.Sorted ple l) :
    (dedupX l).Chain' plt := by
  cases l with
  | nil => exact List.chain'_nil
  | cons p rest =>
    rcases List.sorted_cons.1 h with ⟨hp, hrest⟩
    exact chain'_dedupXAux rest p hrest hp

theorem dedupXAux_of_chain' : ∀ {prev : Point} {l : List Point},
    (prev :: l).Chain' plt → dedupXAux prev l = l := by
  intro prev l
  induction l generalizing prev with
  | nil => intro _; rfl
  | cons q rest ih =>
    intro h
    rcases List.chain'_cons.1 h with ⟨hpq, hrest⟩
    unfold dedupXAux
    rw [if_neg (by exact fun hx => absurd hx (ne_of_gt hpq)), ih hrest]

theorem dedupX_of_chain' {l : List Point} (h : l.Chain' plt) : dedupX l = l := by
  cases l with
  | nil => rfl
  | cons p rest =>
    show p :: dedupXAux p rest = p :: rest
    rw [dedupXAux_of_chain' h]

theorem length_setFirstX (v : ℚ) (l : List Point) :
    (setFirstX v l).length = l.length := by
  cases l <;> rfl

theorem length_setLastX (v : ℚ) : ∀ l : List Point,
    (setLastX v l).length = l.length
  | [] => rfl
  | [_] => rfl
  | p :: q :: rest => by
    rw [setLastX, List.length_cons, length_setLastX v (q :: rest)]
    rfl

theorem length_pinEnds (l : List Point) : (pinEnds l).length = l.length := by
  unfold pinEnds
  rw [length_setLastX, length_setFirstX]

theorem bounded_setFirstX {l : List Point} {v : ℚ} (h : Bounded l)
    (h0 : 0 ≤ v) (h1 : v ≤ 1) : Bounded (setFirstX v l) := by
  cases l with
  | nil => intro p hp; exact absurd hp (List.not_mem_nil p)
  | cons p rest =>
    intro q hq
    rcases List.mem_cons.1 hq with h2 | h2
    · subst h2
      rcases h p (List.mem_cons_self p rest) with ⟨_, _, hy1, hy2⟩
      exact ⟨h0, h1, hy1, hy2⟩
    · exact h q (List.mem_cons_of_mem p h2)

theorem bounded_setLastX {v : ℚ} (h0 : 0 ≤ v) (h1 : v ≤ 1) :
    ∀ {l : List Point}, Bounded l → Bounded (setLastX v l) := by
  intro l
  induction l with
  | nil => intro _ p hp; exact absurd hp (List.not_mem_nil p)
  | cons p rest ih =>
    intro h q hq
    cases rest with
    | nil =>
      rcases List.mem_cons.1 hq with h2 | h2
      · subst h2
        rcases h p (List.mem_cons_self p []) with ⟨_, _, hy1, hy2⟩
        exact ⟨h0, h1, hy1, hy2⟩
      · exact absurd h2 (List.not_mem_nil q)
    | cons r rest' =>
      rcases List.mem_cons.1 hq with h2 | h2
      · subst h2
        exact h q (List.mem_cons_self q _)
      · have hb : Bounded (r :: rest') := fun s hs => h s (List.mem_cons_of_mem p hs)
        exact ih hb q h2

theorem getLast?_setLastX (v : ℚ) : ∀ (l : List Point), l ≠ [] →
    ((setLastX v l).getLast?.getD default).x = v
  | [], h => absurd rfl h
  | [p], _ => rfl
  | p :: q :: rest, _ => by
    rw [setLastX]
    have ih := getLast?_setLastX v (q :: rest) (by simp)
    cases h2 : setLastX v (q :: rest) with
    | nil =>
      have := length_setLastX v (q :: rest)
      rw [h2] at this
      simp at this
    | cons s t =>
      rw [h2] at ih
      rw [List.getLast?_cons_cons]
      exact ih

theorem setFirstX_of_eq : ∀ {l : List Point} {v : ℚ},
    (l.getD 0 default).x = v → setFirstX v l = l
  | [], v, _ => rfl
  | p :: rest, v, h => by
    rw [List.getD_cons_zero] at h
    unfold setFirstX
    rw [← h]

theorem setLastX_of_eq : ∀ {l : List Point} {v : ℚ},
    (l.getLast?.getD default).x = v → setLastX v l = l
  | [], v, _ => rfl
  | [p], v, h => by
    simp only [List.getLast?_singleton, Option.getD_some] at h
    unfold setLastX
    rw [← h]
  | p :: q :: rest, v, h => by
    rw [List.getLast?_cons_cons] at h
    unfold setLastX
    rw [setLastX_of_eq h]

theorem chain'_setFirstX {l : List Point} (hc : l.Chain' plt)
    (hb : Bounded l) : (setFirstX 0 l).Chain' plt := by
  cases l with
  | nil => exact List.chain'_nil
  | cons p rest =>
    unfold setFirstX
    rcases List.chain'_cons'.1 hc with ⟨hhead, htail⟩
    refine List.chain'_cons'.2 ⟨?_, htail⟩
    intro q hq
    have h1 := hhead q hq
    have h2 := (hb p (List.mem_cons_self p rest)).1
    unfold plt at h1 ⊢
    exact lt_of_le_of_lt h2 h1

theorem chain'_setLastX {v : ℚ} : ∀ {l : List Point}, l.Chain' plt →
    (∀ p ∈ l.dropLast, p.x < v) → (setLastX v l).Chain' plt := by
  intro l
  induction l with
  | nil => intro _ _; exact List.chain'_nil
  | cons p rest ih =>
    intro hc hd
    cases rest with
    | nil => exact List.chain'_singleton _
    | cons q rest' =>
      rw [setLastX]
      rcases List.chain'_cons.1 hc with ⟨hpq, htail⟩
      have hd' : ∀ r ∈ (q :: rest').dropLast, r.x < v := by
        intro r hr
        exact hd r (by rw [List.dropLast_cons₂]; exact List.mem_cons_of_mem p hr)
      refine List.chain'_cons'.2 ⟨?_, ih htail hd'⟩
      intro r hr
      cases rest' with
      | nil =>
        simp only [setLastX, List.head?_cons, Option.mem_def, Option.some.injEq] at hr
        subst hr
        unfold plt
        exact hd p (by rw [List.dropLast_cons₂]; exact List.mem_cons_self p _)
      | cons s rest'' =>
        rw [setLastX, List.head?_cons, Option.mem_def, Option.some.injEq] at hr
        subst hr
        exact hpq

theorem chain'_lt_getLast {l : List Point} (hc : l.Chain' plt) :
    ∀ p ∈ l.dropLast, p.x < (l.getLast?.getD default).x := by
  intro p hp
  have hne : l ≠ [] := by
    intro hc'
    rw [hc'] at hp
    exact absurd hp (List.not_mem_nil p)
  have hsplit : l.dropLast ++ [l.getLast hne] = l := List.dropLast_append_getLast hne
  have hpw : l.Pairwise plt := (List.chain'_iff_pairwise).1 hc
  rw [← hsplit] at hpw
  have := (List.pairwise_append.1 hpw).2.2 p hp (l.getLast hne) (List.mem_singleton_self _)
  rw [List.getLast?_eq_getLast l hne]
  exact this

theorem bounded_of_perm {l l' : List Point} (hp : List.Perm l l') (h : Bounded l') :
    Bounded l := fun p hpm => h p (hp.mem_iff.1 hpm)

theorem bounded_filteredPoints (l : List Point) : Bounded (filteredPoints l) := by
  unfold filteredPoints
  intro p hp
  have h1 : p ∈ sortPoints (clampPoints (if l.length < 2 then defaultPoints else l)) :=
    mem_dedupX hp
  have h2 := (sortPoints_perm _).mem_iff.1 h1
  exact bounded_clampPoints _ p h2

theorem chain'_filteredPoints (l : List Point) : (filteredPoints l).Chain' plt :=
  chain'_dedupX (sorted_sortPoints _)

theorem filteredPoints_ne_nil (l : List Point) : filteredPoints l ≠ [] := by
  unfold filteredPoints
  have hbase : (if l.length < 2 then defaultPoints else l).length ≠ 0 := by
    by_cases hl2 : l.length < 2
    · rw [if_pos hl2]; decide
    · rw [if_neg hl2]; omega
  intro hc
  have h1 : sortPoints (clampPoints (if l.length < 2 then defaultPoints else l)) = [] := by
    cases h2 : sortPoints (clampPoints (if l.length < 2 then defaultPoints else l)) with
    | nil => rfl
    | cons s t =>
      rw [h2] at hc
      exact absurd hc (by simp [dedupX])
  have h3 := (sortPoints_perm (clampPoints (if l.length < 2 then defaultPoints else l))).length_eq
  rw [h1] at h3
  unfold clampPoints at h3
  rw [List.length_map] at h3
  exact hbase h3.symm

/-- Structure of the pinning stage: on a list of length at least 2, `pinEnds`
keeps the length, keeps the strict `x`-order when the input is bounded and
strictly increasing, and forces the first `x` to `0` and the last to `1`. -/
theorem pinEnds_facts {l : List Point} (hb : Bounded l) (hc : l.Chain' plt)
    (hlen : 2 ≤ l.length) :
    Bounded (pinEnds l) ∧ (pinEnds l).Chain' plt ∧
      ((pinEnds l).getD 0 default).x = 0 ∧
      ((pinEnds l).getLast?.getD default).x = 1 ∧ (pinEnds l).length = l.length := by
  unfold pinEnds
  have hne : l ≠ [] := by
    intro h
    rw [h] at hlen
    exact absurd hlen (by decide)
  have hbf : Bounded (setFirstX 0 l) := bounded_setFirstX hb le_rfl (by norm_num)
  have hcf : (setFirstX 0 l).Chain' plt := chain'_setFirstX hc hb
  have hnef : setFirstX 0 l ≠ [] := by
    intro h
    have h2 := length_setFirstX 0 l
    rw [h] at h2
    simp only [List.length_nil] at h2
    exact hne (List.length_eq_zero.1 h2.symm)
  constructor
  · exact bounded_setLastX (by norm_num) le_rfl hbf
  constructor
  · refine chain'_setLastX hcf ?_
    intro p hp
    have h1 := chain'_lt_getLast hcf p hp
    have h2 : (setFirstX 0 l).getLast?.getD default ∈ setFirstX 0 l := by
      cases h3 : setFirstX 0 l with
      | nil => exact absurd h3 hnef
      | cons s t =>
        rw [List.getLast?_eq_getLast (s :: t) (by simp)]
        exact Option.getD_some ▸ List.getLast_mem _
    have h3 := (hbf _ h2).2.1
    exact lt_of_lt_of_le h1 h3
  constructor
  · cases l with
    | nil => exact absurd rfl hne
    | cons p rest =>
      cases rest with
      | nil => rw [List.length_singleton] at hlen; exact absurd hlen (by decide)
      | cons q rest' =>
        show (((⟨0, p.y⟩ : Point) :: setLastX 1 (q :: rest')).getD 0 default).x = 0
        rfl
  constructor
  · exact getLast?_setLastX 1 _ hnef
  · rw [length_setLastX, length_setFirstX]

/-- The head of a list obtained by `getD 0` is a member. -/
theorem getD_zero_mem {l : List Point} (h : l ≠ []) : l.getD 0 default ∈ l := by
  cases l with
  | nil => exact absurd rfl h
  | cons p rest => exact List.mem_cons_self p rest

theorem getLast_getD_mem {l : List Point} (h : l ≠ []) :
    l.getLast?.getD default ∈ l := by
  rw [List.getLast?_eq_getLast l h]
  exact Option.getD_some ▸ List.getLast_mem _

/-- C1, main part: `_ensureValidPoints` always returns a valid set. -/
theorem ensureValidPoints_valid (l : List Point) : Valid (ensureValidPoints l) := by
  unfold ensureValidPoints
  by_cases h : (pinEnds (filteredPoints l)).length < 2
  · rw [if_pos h]
    decide
  · rw [if_neg h]
    push_neg at h
    have hlen2 : 2 ≤ (filteredPoints l).length := by
      rw [length_pinEnds] at h
      exact h
    have hfacts := pinEnds_facts (bounded_filteredPoints l) (chain'_filteredPoints l) hlen2
    rcases hfacts with ⟨hb, hc, hh, hl, hlen⟩
    exact ⟨hb, hc, hh, hl, by rw [hlen]; exact hlen2⟩

/-- C1, degenerate part: when fewer than 2 points survive the duplicate
filter, the result is exactly the default two-point set. -/
theorem ensureValidPoints_default_of_short (l : List Point)
    (h : (filteredPoints l).length < 2) : ensureValidPoints l = defaultPoints := by
  unfold ensureValidPoints
  rw [if_pos (by rw [length_pinEnds]; exact h)]

/-- `_ensureValidPoints` leaves any already-valid set unchanged. -/
theorem ensureValidPoints_of_valid {l : List Point} (hv : Valid l) :
    ensureValidPoints l = l := by
  rcases hv with ⟨hb, hc, hh, hl, hlen⟩
  have hne : l ≠ [] := by
    intro h
    rw [h] at hlen
    exact absurd hlen (by decide)
  have hfix : filteredPoints l = l := by
    unfold filteredPoints
    rw [if_neg (by omega), clampPoints_of_bounded hb,
      sortPoints_of_sorted (chain'_plt_sorted hc), dedupX_of_chain' hc]
  unfold ensureValidPoints
  rw [hfix]
  have hpin : pinEnds l = l := by
    unfold pinEnds
    rw [setFirstX_of_eq hh, setLastX_of_eq hl]
  rw [hpin, if_neg (by omega)]

/-- On bounded, strictly-increasing input of length at least 2,
`_ensureValidPoints` reduces to the endpoint-pinning stage. -/
theorem ensureValidPoints_of_chain {l : List Point} (hb : Bounded l)
    (hc : l.Chain' plt) (hlen : 2 ≤ l.length) :
    ensureValidPoints l = pinEnds l := by
  have hfix : filteredPoints l = l := by
    unfold filteredPoints
    rw [if_neg (by omega), clampPoints_of_bounded hb,
      sortPoints_of_sorted (chain'_plt_sorted hc), dedupX_of_chain' hc]
  unfold ensureValidPoints
  rw [hfix, if_neg (by rw [length_pinEnds]; omega)]

theorem chain'_of_sorted_nodup {l : List Point} (hs : List.Sorted ple l)
    (hn : (l.map Point.x).Nodup) : l.Chain' plt := by
  rw [List.chain'_iff_pairwise]
  have h1 : l.Pairwise ple := hs
  have h2 : l.Pairwise (fun a b : Point => a.x ≠ b.x) := List.pairwise_map.1 hn
  have h3 := List.Pairwise.and h1 h2
  exact h3.imp fun hab => lt_of_le_of_ne hab.1 hab.2

theorem nodup_xs_of_chain' {l : List Point} (hc : l.Chain' plt) :
    (l.map Point.x).Nodup := by
  have h1 : l.Pairwise plt := (List.chain'_iff_pairwise).1 hc
  exact List.pairwise_map.2 (h1.imp fun hab => ne_of_lt hab)

theorem sorted_head_min {l : List Point} (hs : List.Sorted ple l) :
    ∀ p ∈ l, (l.getD 0 default).x ≤ p.x := by
  cases l with
  | nil => intro p hp; exact absurd hp (List.not_mem_nil p)
  | cons a t =>
    intro p hp
    rcases List.mem_cons.1 hp with h | h
    · subst h; exact le_rfl
    · exact (List.sorted_cons.1 hs).1 p h

theorem sorted_last_max : ∀ {l : List Point}, List.Sorted ple l →
    ∀ p ∈ l, p.x ≤ (l.getLast?.getD default).x := by
  intro l
  induction l with
  | nil => intro _ p hp; exact absurd hp (List.not_mem_nil p)
  | cons a t ih =>
    intro hs p hp
    cases t with
    | nil =>
      rcases List.mem_cons.1 hp with h | h
      · subst h; exact le_rfl
      · exact absurd h (List.not_mem_nil p)
    | cons b t' =>
      rw [List.getLast?_cons_cons]
      rcases List.sorted_cons.1 hs with ⟨ha, ht⟩
      rcases List.mem_cons.1 hp with h | h
      · subst h
        have hb : (b :: t').getLast?.getD default ∈ b :: t' :=
          getLast_getD_mem (by simp)
        exact le_trans (ha _ hb) (le_rfl)
      · exact ih ht p h

/-! ### Interaction-controller constants and handlers -/

/-- `this.hitRadius = 0.05`. -/
def hitRadius : ℚ := 0.05

/-- The `1e-4` duplicate-`x` threshold of the insert branch of `onMouseDown`. -/
def insertEps : ℚ := 1e-4

/-- The `1e-3` margin of the interior-point drag clamp in `onMouseMove`. -/
def dragMargin : ℚ := 1e-3

/-- The shift-click delete branch of `onMouseDown` (lines 609–620): only
delete when more than 2 points remain, then revalidate via
`updateCurve → _ensureValidPoints`. -/
def deletePoint (points : List Point) (idx : ℕ) : List Point :=
  if 2 < points.length then ensureValidPoints (points.eraseIdx idx) else points

/-- The no-hit insert branch of `onMouseDown` (lines 632–643): clamp the
pointer position, reject if some point's `x` is within `1e-4` of the new
`x`, else push the new point and revalidate via
`updateCurve → _ensureValidPoints`. -/
def insertPoint (points : List Point) (gx gy : ℚ) : List Point :=
  let newX := clamp01 gx
  if ∃ p ∈ points, jabs (p.x - newX) < insertEps then points
  else
    let newY := clamp01 gy
    ensureValidPoints (points ++ [⟨newX, newY⟩])

/-- The new `x` computed by `onMouseMove` for the dragged point at index `i`
(lines 659–667): `raw` is `graphPos.x - dragState.offsetX`; clamp to
`[0,1]`, pin index `0` to `0` and the last index to `1`, and clamp interior
indices against the neighbours with margin `1e-3`. -/
def moveClampX (points : List Point) (i : ℕ) (raw : ℚ) : ℚ :=
  let newX := clamp01 raw
  if i = 0 then 0
  else if i = points.length - 1 then 1
  else
    let newX1 :=
      if 0 < i then jmax ((points.getD (i - 1) default).x + dragMargin) newX else newX
    if i < points.length - 1 then
      jmin ((points.getD (i + 1) default).x - dragMargin) newX1
    else newX1

/-! ### Claim C1 -/

/-- C1: `_ensureValidPoints` (the Geometry Model's `validate`) is total and
always returns a set satisfying all five invariants — coordinates clamped to
`[0,1]`, strictly increasing in `x`, first `x` exactly `0`, last `x` exactly
`1`, at least 2 points — and whenever fewer than 2 points remain after the
duplicate filter, the result is exactly the default set `[(0,1),(1,0)]`. -/
theorem validate_total_valid (l : List Point) :
    Valid (ensureValidPoints l) ∧
      ((filteredPoints l).length < 2 → ensureValidPoints l = defaultPoints) :=
  ⟨ensureValidPoints_valid l, ensureValidPoints_default_of_short l⟩

/-- Witness for C1 at a concrete degenerate input (two points sharing `x`):
the duplicate filter leaves a single point and the result is the default. -/
theorem validate_total_valid_witness :
    Valid (ensureValidPoints [⟨mkRat 1 2, 0⟩, ⟨mkRat 1 2, 1⟩]) ∧
      (filteredPoints [⟨mkRat 1 2, 0⟩, ⟨mkRat 1 2, 1⟩]).length < 2 ∧
      ensureValidPoints [⟨mkRat 1 2, 0⟩, ⟨mkRat 1 2, 1⟩] = defaultPoints :=
  ⟨(validate_total_valid [⟨mkRat 1 2, 0⟩, ⟨mkRat 1 2, 1⟩]).1, by decide,
    (validate_total_valid [⟨mkRat 1 2, 0⟩, ⟨mkRat 1 2, 1⟩]).2 (by decide)⟩

/-! ### Claim C2 -/

/-- C2: `_ensureValidPoints` is idempotent: validating twice equals
validating once, for every input point list. -/
theorem validate_idempotent (l : List Point) :
    ensureValidPoints (ensureValidPoints l) = ensureValidPoints l :=
  ensureValidPoints_of_valid (ensureValidPoints_valid l)

/-! ### Claim C6 -/

/-- C6: shift-click deletion keeps the count at or above 2: on a valid set
with more than 2 points it removes exactly one point (count drops by one),
and on a 2-point set it is a no-op. -/
theorem delete_floor (points : List Point) (idx : ℕ) (hv : Valid points)
    (hidx : idx < points.length) :
    (2 < points.length →
        deletePoint points idx = pinEnds (points.eraseIdx idx) ∧
          (deletePoint points idx).length = points.length - 1) ∧
      (points.length = 2 → deletePoint points idx = points) := by
  constructor
  · intro h3
    rcases hv with ⟨hb, hc, _, _, _⟩
    have hsub : (points.eraseIdx idx).Sublist points := List.eraseIdx_sublist points idx
    have hb' : Bounded (points.eraseIdx idx) := fun p hp => hb p (hsub.mem hp)
    have hcc : points.Chain' plt := hc
    have hc' : (points.eraseIdx idx).Chain' plt :=
      (List.chain'_iff_pairwise).2 (((List.chain'_iff_pairwise).1 hcc).sublist hsub)
    have hlen' : (points.eraseIdx idx).length = points.length - 1 := by
      rw [List.length_eraseIdx, if_pos hidx]
    have heq : deletePoint points idx = pinEnds (points.eraseIdx idx) := by
      unfold deletePoint
      rw [if_pos h3]
      exact ensureValidPoints_of_chain hb' hc' (by omega)
    exact ⟨heq, by rw [heq, length_pinEnds, hlen']⟩
  · intro h2
    unfold deletePoint
    rw [if_neg (by omega)]

/-- Witness for C6: deleting index 1 from a valid 3-point set yields 2
points; a 2-point set is returned unchanged. -/
theorem delete_floor_witness :
    ((2 < ([⟨0, 1⟩, ⟨mkRat 1 2, 1⟩, ⟨1, 0⟩] : List Point).length →
        deletePoint [⟨0, 1⟩, ⟨mkRat 1 2, 1⟩, ⟨1, 0⟩] 1 =
            pinEnds (([⟨0, 1⟩, ⟨mkRat 1 2, 1⟩, ⟨1, 0⟩] : List Point).eraseIdx 1) ∧
          (deletePoint [⟨0, 1⟩, ⟨mkRat 1 2, 1⟩, ⟨1, 0⟩] 1).length =
            ([⟨0, 1⟩, ⟨mkRat 1 2, 1⟩, ⟨1, 0⟩] : List Point).length - 1) ∧
      (([⟨0, 1⟩, ⟨mkRat 1 2, 1⟩, ⟨1, 0⟩] : List Point).length = 2 →
        deletePoint [⟨0, 1⟩, ⟨mkRat 1 2, 1⟩, ⟨1, 0⟩] 1 =
          [⟨0, 1⟩, ⟨mkRat 1 2, 1⟩, ⟨1, 0⟩])) ∧
    ((2 < (defaultPoints : List Point).length →
        deletePoint defaultPoints 1 = pinEnds (defaultPoints.eraseIdx 1) ∧
          (deletePoint defaultPoints 1).length =
            (defaultPoints : List Point).length - 1) ∧
      ((defaultPoints : List Point).length = 2 →
        deletePoint defaultPoints 1 = defaultPoints)) :=
  ⟨delete_floor [⟨0, 1⟩, ⟨mkRat 1 2, 1⟩, ⟨1, 0⟩] 1 (by decide) (by decide),
    delete_floor defaultPoints 1 (by decide) (by decide)⟩

/-! ### Claim C7 -/

theorem insertEps_pos : (0 : ℚ) < insertEps := by
  with_unfolding_all exact of_decide_eq_true rfl

/-- C7: a press that hits no existing point is rejected atomically when the
clamped `x` is within `1e-4` of an existing point's `x` (the set is left
unchanged); otherwise the new point at the clamped position is inserted (the
count grows by one and the new point is a member of the result). -/
theorem insert_dedup (points : List Point) (gx gy : ℚ) (hv : Valid points)
    (hnohit : ∀ p ∈ points,
      ¬((p.x - gx) * (p.x - gx) + (p.y - gy) * (p.y - gy) < hitRadius * hitRadius)) :
    ((∃ p ∈ points, jabs (p.x - clamp01 gx) < insertEps) →
        insertPoint points gx gy = points) ∧
      (¬(∃ p ∈ points, jabs (p.x - clamp01 gx) < insertEps) →
        (insertPoint points gx gy).length = points.length + 1 ∧
          (⟨clamp01 gx, clamp01 gy⟩ : Point) ∈ insertPoint points gx gy) := by
  constructor
  · intro h
    unfold insertPoint
    rw [if_pos h]
  · intro hno
    rcases hv with ⟨hb, hc, hh, hl, hlen⟩
    have hcc : points.Chain' plt := hc
    have hne : points ≠ [] := by
      intro h
      rw [h] at hlen
      exact absurd hlen (by decide)
    set q : Point := ⟨clamp01 gx, clamp01 gy⟩ with hq
    have hbq : 0 ≤ q.x ∧ q.x ≤ 1 ∧ 0 ≤ q.y ∧ q.y ≤ 1 :=
      ⟨clamp01_nonneg _, clamp01_le_one _, clamp01_nonneg _, clamp01_le_one _⟩
    set l : List Point := points ++ [q] with hldef
    have hbl : Bounded l := by
      intro p hp
      rcases List.mem_append.1 hp with h1 | h1
      · exact hb p h1
      · rw [List.mem_singleton] at h1
        subst h1
        exact hbq
    have hqx_ne : ∀ p ∈ points, p.x ≠ q.x := by
      intro p hp hcontra
      refine hno ⟨p, hp, ?_⟩
      show jabs (p.x - clamp01 gx) < insertEps
      have : p.x - clamp01 gx = 0 := by rw [hq] at hcontra; simp at hcontra; linarith
      rw [this]
      show jabs 0 < insertEps
      rw [jabs_eq_abs, abs_zero]
      exact insertEps_pos
    have hnodup : (l.map Point.x).Nodup := by
      rw [hldef, List.map_append, List.nodup_append]
      refine ⟨nodup_xs_of_chain' hcc, List.nodup_singleton _, ?_⟩
      intro a ha hamem
      rcases List.mem_map.1 ha with ⟨p, hp, rfl⟩
      rw [List.map_singleton, List.mem_singleton] at hamem
      exact hqx_ne p hp hamem
    have hlenl : l.length = points.length + 1 := by
      rw [hldef, List.length_append, List.length_singleton]
    have hperm : List.Perm (sortPoints l) l := sortPoints_perm l
    have hS_sorted := sorted_sortPoints l
    have hS_nodup : ((sortPoints l).map Point.x).Nodup :=
      (hperm.map Point.x).nodup_iff.2 hnodup
    have hcS : (sortPoints l).Chain' plt := chain'_of_sorted_nodup hS_sorted hS_nodup
    have hSlen : (sortPoints l).length = points.length + 1 := by
      rw [hperm.length_eq, hlenl]
    have hSne : sortPoints l ≠ [] := by
      intro h
      rw [h] at hSlen
      simp at hSlen
    have hbS : Bounded (sortPoints l) := bounded_of_perm hperm hbl
    have heval : ensureValidPoints l = pinEnds (sortPoints l) := by
      have hfix : filteredPoints l = sortPoints l := by
        unfold filteredPoints
        rw [if_neg (by omega), clampPoints_of_bounded hbl, dedupX_of_chain' hcS]
      unfold ensureValidPoints
      rw [hfix, if_neg (by rw [length_pinEnds]; omega)]
    have hheadx : ((sortPoints l).getD 0 default).x = 0 := by
      have hp0 : points.getD 0 default ∈ sortPoints l :=
        hperm.mem_iff.2 (List.mem_append.2 (Or.inl (getD_zero_mem hne)))
      have h1 := sorted_head_min hS_sorted _ hp0
      rw [hh] at h1
      have h2 := (hbS _ (getD_zero_mem hSne)).1
      exact le_antisymm h1 h2
    have hlastx : ((sortPoints l).getLast?.getD default).x = 1 := by
      have hp1 : points.getLast?.getD default ∈ sortPoints l :=
        hperm.mem_iff.2 (List.mem_append.2 (Or.inl (getLast_getD_mem hne)))
      have h1 := sorted_last_max hS_sorted _ hp1
      rw [hl] at h1
      have h2 := (hbS _ (getLast_getD_mem hSne)).2.1
      exact le_antisymm h2 h1
    have hpin : pinEnds (sortPoints l) = sortPoints l := by
      unfold pinEnds
      rw [setFirstX_of_eq hheadx, setLastX_of_eq hlastx]
    have hresult : insertPoint points gx gy = sortPoints l := by
      unfold insertPoint
      rw [if_neg hno]
      show ensureValidPoints l = sortPoints l
      rw [heval, hpin]
    refine ⟨?_, ?_⟩
    · rw [hresult, hSlen]
    · rw [hresult]
      exact hperm.mem_iff.2 (List.mem_append.2 (Or.inr (List.mem_singleton_self q)))

/-- Witness for C7: on the default two-point set, an insert at the centre is
accepted and yields three points; the within-`1e-4` rejection branch holds
vacuously there. -/
theorem insert_dedup_witness :
    ((∃ p ∈ defaultPoints, jabs (p.x - clamp01 (mkRat 1 2)) < insertEps) →
        insertPoint defaultPoints (mkRat 1 2) (mkRat 1 2) = defaultPoints) ∧
      (¬(∃ p ∈ defaultPoints, jabs (p.x - clamp01 (mkRat 1 2)) < insertEps) →
        (insertPoint defaultPoints (mkRat 1 2) (mkRat 1 2)).length =
            defaultPoints.length + 1 ∧
          (⟨clamp01 (mkRat 1 2), clamp01 (mkRat 1 2)⟩ : Point) ∈
            insertPoint defaultPoints (mkRat 1 2) (mkRat 1 2)) :=
  insert_dedup defaultPoints (mkRat 1 2) (mkRat 1 2) (by decide)
    (by with_unfolding_all exact of_decide_eq_true rfl)

/-! ### Claim C5 -/

theorem dragMargin_pos : (0 : ℚ) < dragMargin := by
  with_unfolding_all exact of_decide_eq_true rfl

/-- Counterexample to C5 as stated: on a valid set whose neighbours around
the dragged index are closer together than twice the `1e-3` margin, the
max-then-min clamp of `onMouseMove` produces an `x` at or below the left
neighbour's `x`. Here the dragged point is index 2, its neighbours have
`x = 0.5` and `x = 0.5005`, and the pointer maps to `x = 0.9`: the computed
`x` is `0.4995 ≤ 0.5`. -/
theorem drag_clamp_counterexample :
    Valid [⟨0, 1⟩, ⟨0.5, 1⟩, ⟨0.50025, 1⟩, ⟨0.5005, 1⟩, ⟨1, 0⟩] ∧
      moveClampX [⟨0, 1⟩, ⟨0.5, 1⟩, ⟨0.50025, 1⟩, ⟨0.5005, 1⟩, ⟨1, 0⟩] 2 0.9 ≤
        (([⟨0, 1⟩, ⟨0.5, 1⟩, ⟨0.50025, 1⟩, ⟨0.5005, 1⟩, ⟨1, 0⟩] : List Point).getD 1
            default).x := by
  with_unfolding_all exact of_decide_eq_true rfl

/-- C5, amended: the dragged interior `x` never exceeds the right
neighbour's `x` minus `1e-3`; and whenever the two neighbours are at least
`2e-3` apart, it also stays at or above the left neighbour's `x` plus
`1e-3`, hence strictly between the neighbours. (As stated the claim fails
when the neighbours are closer than `2e-3`; see the counterexample.) -/
theorem drag_clamp_amended (points : List Point) (i : ℕ) (raw : ℚ)
    (hv : Valid points) (h0 : 0 < i) (hi : i < points.length - 1) :
    moveClampX points i raw ≤ (points.getD (i + 1) default).x - dragMargin ∧
      ((points.getD (i - 1) default).x + 2 * dragMargin ≤
          (points.getD (i + 1) default).x →
        (points.getD (i - 1) default).x + dragMargin ≤ moveClampX points i raw ∧
          (points.getD (i - 1) default).x < moveClampX points i raw ∧
          moveClampX points i raw < (points.getD (i + 1) default).x) := by
  have hval : moveClampX points i raw =
      jmin ((points.getD (i + 1) default).x - dragMargin)
        (jmax ((points.getD (i - 1) default).x + dragMargin) (clamp01 raw)) := by
    unfold moveClampX
    rw [if_neg (by omega), if_neg (by omega), if_pos h0, if_pos hi]
  rw [hval, jmin_eq_min, jmax_eq_max]
  have hm := dragMargin_pos
  constructor
  · exact min_le_left _ _
  · intro hgap
    have h1 : (points.getD (i - 1) default).x + dragMargin ≤
        (points.getD (i + 1) default).x - dragMargin := by linarith
    have h2 : (points.getD (i - 1) default).x + dragMargin ≤
        max ((points.getD (i - 1) default).x + dragMargin) (clamp01 raw) :=
      le_max_left _ _
    have h3 := le_min h1 h2
    have h4 : min ((points.getD (i + 1) default).x - dragMargin)
        (max ((points.getD (i - 1) default).x + dragMargin) (clamp01 raw)) ≤
          (points.getD (i + 1) default).x - dragMargin := min_le_left _ _
    exact ⟨h3, by linarith, by linarith⟩

/-- Witness for the amended C5 on a valid 3-point set with well-separated
neighbours, dragging the middle point towards the far left. -/
theorem drag_clamp_amended_witness :
    moveClampX [⟨0, 1⟩, ⟨mkRat 1 2, 1⟩, ⟨1, 0⟩] 1 0 ≤
        (([⟨0, 1⟩, ⟨mkRat 1 2, 1⟩, ⟨1, 0⟩] : List Point).getD 2 default).x -
          dragMargin ∧
      ((([⟨0, 1⟩, ⟨mkRat 1 2, 1⟩, ⟨1, 0⟩] : List Point).getD 0 default).x +
            2 * dragMargin ≤
          (([⟨0, 1⟩, ⟨mkRat 1 2, 1⟩, ⟨1, 0⟩] : List Point).getD 2 default).x →
        (([⟨0, 1⟩, ⟨mkRat 1 2, 1⟩, ⟨1, 0⟩] : List Point).getD 0 default).x +
              dragMargin ≤
            moveClampX [⟨0, 1⟩, ⟨mkRat 1 2, 1⟩, ⟨1, 0⟩] 1 0 ∧
          (([⟨0, 1⟩, ⟨mkRat 1 2, 1⟩, ⟨1, 0⟩] : List Point).getD 0 default).x <
            moveClampX [⟨0, 1⟩, ⟨mkRat 1 2, 1⟩, ⟨1, 0⟩] 1 0 ∧
          moveClampX [⟨0, 1⟩, ⟨mkRat 1 2, 1⟩, ⟨1, 0⟩] 1 0 <
            (([⟨0, 1⟩, ⟨mkRat 1 2, 1⟩, ⟨1, 0⟩] : List Point).getD 2 default).x) :=
  drag_clamp_amended [⟨0, 1⟩, ⟨mkRat 1 2, 1⟩, ⟨1, 0⟩] 1 0 (by decide) (by decide)
    (by decide)

/-! ### Claim C8 -/

/-- A parsed `curve_data` payload: `control_points` and `samples` are
`none` when the corresponding field is absent or not an array (the numeric
coercion `Number(...)` of the entries is taken as already performed). -/
structure Payload where
  control_points : Option (List Point)
  samples : Option (List (ℚ × ℚ))

/-- The two-point fallback built from the first and last sample:
`[{x: samples[0][0], y: samples[0][1]},
  {x: samples[len-1][0], y: samples[len-1][1]}]`. -/
def samplesFallback (ss : List (ℚ × ℚ)) : List Point :=
  [⟨(ss.getD 0 (0, 0)).1, (ss.getD 0 (0, 0)).2⟩,
    ⟨(ss.getD (ss.length - 1) (0, 0)).1, (ss.getD (ss.length - 1) (0, 0)).2⟩]

/-- The branch structure of the `curve_data` decode (widget callback,
lines 348–373, and the identical logic in `onNodeCreated`): `none` stands
for a missing/unparseable payload. This is the value assigned to
`this.points` before `updateCurve` revalidates. -/
def decodeRaw : Option Payload → List Point
  | none => defaultPoints
  | some d =>
    match d.control_points with
    | some cps =>
      if 2 ≤ cps.length then cps
      else
        match d.samples with
        | some ss => if 2 ≤ ss.length then samplesFallback ss else defaultPoints
        | none => defaultPoints
    | none =>
      match d.samples with
      | some ss => if 2 ≤ ss.length then samplesFallback ss else defaultPoints
      | none => defaultPoints

/-- The decoded `ControlPointSet` as it stands after the handler returns:
the branch result revalidated by `updateCurve → _ensureValidPoints`. -/
def decode (p : Option Payload) : List Point := ensureValidPoints (decodeRaw p)

/-- Counterexample to C8 as stated: with `control_points` absent and
`samples = [[2,3],[5,7]]` (two entries), the claim says the
`ControlPointSet` becomes the two-point set built from the first and last
sample, i.e. `[(2,3),(5,7)]`; the code revalidates that set (clamping both
points to `(1,1)`, collapsing the duplicate `x`, and resetting), so the
stored set is the default `[(0,1),(1,0)]` instead. -/
theorem decode_counterexample :
    decode (some ⟨none, some [(2, 3), (5, 7)]⟩) ≠
        samplesFallback [(2, 3), (5, 7)] ∧
      samplesFallback [(2, 3), (5, 7)] = [⟨2, 3⟩, ⟨5, 7⟩] ∧
      decode (some ⟨none, some [(2, 3), (5, 7)]⟩) = defaultPoints := by
  refine ⟨?_, by decide, by decide⟩
  decide

/-- C8, amended: decode is total; a payload with at least 2 control points
yields those points validated; otherwise at least 2 samples yield the
validated two-point first/last-sample fallback; otherwise (including parse
failure, modelled by `none`) the default two-point set. The result is a
valid set in every case. -/
theorem decode_total (p : Option Payload) :
    Valid (decode p) ∧
      (p = none → decode p = defaultPoints) ∧
      (∀ d cps, p = some d → d.control_points = some cps → 2 ≤ cps.length →
        decode p = ensureValidPoints cps) ∧
      (∀ d ss, p = some d → d.control_points = none → d.samples = some ss →
        2 ≤ ss.length → decode p = ensureValidPoints (samplesFallback ss)) ∧
      (∀ d cps ss, p = some d → d.control_points = some cps → cps.length < 2 →
        d.samples = some ss → 2 ≤ ss.length →
        decode p = ensureValidPoints (samplesFallback ss)) ∧
      (∀ d, p = some d → d.control_points = none → d.samples = none →
        decode p = defaultPoints) := by
  have hdef : ensureValidPoints defaultPoints = defaultPoints := by decide
  refine ⟨ensureValidPoints_valid _, ?_, ?_, ?_, ?_, ?_⟩
  · intro h
    subst h
    show ensureValidPoints defaultPoints = defaultPoints
    exact hdef
  · intro d cps hp hcp hlen
    subst hp
    obtain ⟨ocp, oss⟩ := d
    dsimp only at hcp
    subst hcp
    show ensureValidPoints (decodeRaw (some ⟨some cps, oss⟩)) = _
    unfold decodeRaw
    dsimp only
    rw [if_pos hlen]
  · intro d ss hp hcp hss hlen
    subst hp
    obtain ⟨ocp, oss⟩ := d
    dsimp only at hcp hss
    subst hcp
    subst hss
    show ensureValidPoints (decodeRaw (some ⟨none, some ss⟩)) = _
    unfold decodeRaw
    dsimp only
    rw [if_pos hlen]
  · intro d cps ss hp hcp hlt hss hlen
    subst hp
    obtain ⟨ocp, oss⟩ := d
    dsimp only at hcp hss
    subst hcp
    subst hss
    show ensureValidPoints (decodeRaw (some ⟨some cps, some ss⟩)) = _
    unfold decodeRaw
    dsimp only
    rw [if_neg (by omega), if_pos hlen]
  · intro d hp hcp hss
    subst hp
    obtain ⟨ocp, oss⟩ := d
    dsimp only at hcp hss
    subst hcp
    subst hss
    show ensureValidPoints (decodeRaw (some ⟨none, none⟩)) = _
    exact hdef

/-- Witness for C8 exercising the control-points branch at a concrete
payload. -/
theorem decode_total_witness :
    decode (some ⟨some [⟨0, 0⟩, ⟨1, 1⟩], none⟩) =
      ensureValidPoints [⟨0, 0⟩, ⟨1, 1⟩] :=
  (decode_total (some ⟨some [⟨0, 0⟩, ⟨1, 1⟩], none⟩)).2.2.1 _ _ rfl rfl (by decide)

/-! ### The spline sampler (`centripetalCatmullRomSpline`, lines 4–47)

The source's knot increment is `Math.sqrt(Math.hypot(dx, dy))`, which is
irrational in general; the sampler is parametrised by `sq : ℚ → ℚ → ℚ`
standing for that composed function. Theorems assume of `sq` only
properties the real function enjoys, so they hold for it in particular. -/

/-- `tj(ti, pi, pj) = ti + Math.sqrt(Math.hypot(dx, dy))`. -/
def tj (sq : ℚ → ℚ → ℚ) (ti : ℚ) (pa pb : Point) : ℚ :=
  ti + sq (pb.x - pa.x) (pb.y - pa.y)

/-- The inner `lerp(pa, pb, ta, tb)` closure at the current parameter `t`:
returns `pa` unchanged when the knots coincide, else interpolates. -/
def lerpP (t ta tb : ℚ) (pa pb : Point) : Point :=
  if tb - ta = 0 then ⟨pa.x, pa.y⟩
  else
    let ratio := (t - ta) / (tb - ta)
    ⟨pa.x + (pb.x - pa.x) * ratio, pa.y + (pb.y - pa.y) * ratio⟩

/-- One pushed sample of the segment loop: the De Casteljau-style pyramid
`A1 A2 A3 / B1 B2 / C` evaluated at `t = t1 + (t2 - t1) * (j / numSamples)`,
clamped to the unit square. -/
def segSample (sq : ℚ → ℚ → ℚ) (p0 p1 p2 p3 : Point) (numSamples j : ℕ) :
    ℚ × ℚ :=
  let t0 : ℚ := 0
  let t1 := tj sq t0 p0 p1
  let t2 := tj sq t1 p1 p2
  let t3 := tj sq t2 p2 p3
  let t := t1 + (t2 - t1) * ((j : ℚ) / (numSamples : ℚ))
  let A1 := lerpP t t0 t1 p0 p1
  let A2 := lerpP t t1 t2 p1 p2
  let A3 := lerpP t t2 t3 p2 p3
  let B1 := lerpP t t0 t2 A1 A2
  let B2 := lerpP t t1 t3 A2 A3
  let C := lerpP t t1 t2 B1 B2
  (clamp01 C.x, clamp01 C.y)

/-- `centripetalCatmullRomSpline(points, numSamples)`: fewer than 2 points
are returned as pairs unchanged; otherwise the point list is padded with
phantom copies of the first and last point, each of the `n - 1` windows of
4 consecutive padded points contributes `numSamples` samples, and the last
control point is appended exactly. -/
def centripetalCatmullRomSpline (sq : ℚ → ℚ → ℚ) (points : List Point)
    (numSamples : ℕ) : List (ℚ × ℚ) :=
  if points.length < 2 then points.map fun p => (p.x, p.y)
  else
    let pts := points.getD 0 default :: (points ++ [points.getLast?.getD default])
    (List.flatten ((List.range (points.length - 1)).map fun seg =>
        (List.range numSamples).map fun j =>
          segSample sq (pts.getD seg default) (pts.getD (seg + 1) default)
            (pts.getD (seg + 2) default) (pts.getD (seg + 3) default)
            numSamples j))
      ++ [((points.getLast?.getD default).x, (points.getLast?.getD default).y)]

/-! ### Claim C3 -/

/-- C3: for a valid set of `n` points and `k` samples per segment, the
sampler emits exactly `(n-1)*k + 1` samples. -/
theorem sample_count (sq : ℚ → ℚ → ℚ) (points : List Point) (k : ℕ)
    (hv : Valid points) (hk : 1 ≤ k) :
    (centripetalCatmullRomSpline sq points k).length =
      (points.length - 1) * k + 1 := by
  have hlen : 2 ≤ points.length := hv.2.2.2.2
  unfold centripetalCatmullRomSpline
  rw [if_neg (by omega)]
  rw [List.length_append, List.length_singleton, List.length_flatten,
    List.map_map]
  have hconst : List.map
      (List.length ∘ fun seg => (List.range k).map fun j =>
        segSample sq
          ((points.getD 0 default :: (points ++ [points.getLast?.getD default])).getD
            seg default)
          ((points.getD 0 default :: (points ++ [points.getLast?.getD default])).getD
            (seg + 1) default)
          ((points.getD 0 default :: (points ++ [points.getLast?.getD default])).getD
            (seg + 2) default)
          ((points.getD 0 default :: (points ++ [points.getLast?.getD default])).getD
            (seg + 3) default) k j)
      (List.range (points.length - 1)) =
      List.map (fun _ => k) (List.range (points.length - 1)) := by
    refine List.map_congr_left ?_
    intro a _
    simp [Function.comp]
  rw [hconst, List.map_const', List.sum_replicate, List.length_range,
    smul_eq_mul]

/-- Witness for C3: the default two-point set with one sample per segment
yields `(2-1)*1 + 1 = 2` samples. -/
theorem sample_count_witness :
    (centripetalCatmullRomSpline (fun dx dy => 0) defaultPoints 1).length =
      (defaultPoints.length - 1) * 1 + 1 :=
  sample_count (fun _ _ => 0) defaultPoints 1 (by decide) (by decide)

/-! ### Claim C4 -/

/-- C4: the final emitted sample equals the last control point exactly (it
is appended verbatim after the segment loop), for every valid set and every
`k ≥ 1`, independently of the knot function. -/
theorem sample_last_exact (sq : ℚ → ℚ → ℚ) (points : List Point) (k : ℕ)
    (hv : Valid points) (hk : 1 ≤ k) :
    (centripetalCatmullRomSpline sq points k).getLast? =
      some ((points.getLast?.getD default).x, (points.getLast?.getD default).y) := by
  have hlen : 2 ≤ points.length := hv.2.2.2.2
  unfold centripetalCatmullRomSpline
  rw [if_neg (by omega)]
  exact List.getLast?_concat _

/-- Witness for C4 on the default two-point set. -/
theorem sample_last_exact_witness :
    (centripetalCatmullRomSpline (fun dx dy => 0) defaultPoints 1).getLast? =
      some ((defaultPoints.getLast?.getD default).x,
        (defaultPoints.getLast?.getD default).y) :=
  sample_last_exact (fun _ _ => 0) defaultPoints 1 (by decide) (by decide)

/-! ### Claim C10 -/

theorem lerpP_degenerate (t ta : ℚ) (pa pb : Point) :
    lerpP t ta ta pa pb = ⟨pa.x, pa.y⟩ := by
  unfold lerpP
  rw [if_pos (sub_self ta)]

theorem lerpP_at_left {ta tb : ℚ} (h : tb - ta ≠ 0) (pa pb : Point) :
    lerpP ta ta tb pa pb = ⟨pa.x, pa.y⟩ := by
  unfold lerpP
  rw [if_neg h]
  simp

/-- At `j = 0` on the first (phantom-duplicated) window, the pyramid
collapses to the first control point: `t1 = t0 = 0` because the phantom
knot distance is `sq 0 0 = 0`, every non-degenerate lerp has ratio
exactly `0`, and the clamp leaves the in-range point unchanged. -/
theorem segSample_zero (sq : ℚ → ℚ → ℚ) (hsq0 : sq 0 0 = 0)
    (hsqpos : ∀ dx dy, dx ≠ 0 → 0 < sq dx dy) (q0 q1 p3 : Point) (k : ℕ)
    (hx : q0.x < q1.x) (hb0 : 0 ≤ q0.x) (hb1 : q0.x ≤ 1) (hb2 : 0 ≤ q0.y)
    (hb3 : q0.y ≤ 1) :
    segSample sq q0 q0 q1 p3 k 0 = (q0.x, q0.y) := by
  have ht1 : tj sq 0 q0 q0 = 0 := by
    unfold tj
    rw [sub_self, sub_self, hsq0, add_zero]
  have hs : 0 < sq (q1.x - q0.x) (q1.y - q0.y) :=
    hsqpos _ _ (sub_ne_zero.2 (ne_of_gt hx))
  unfold segSample
  dsimp only
  rw [ht1]
  have ht2 : tj sq 0 q0 q1 = sq (q1.x - q0.x) (q1.y - q0.y) := by
    unfold tj
    rw [zero_add]
  rw [ht2]
  have htzero : (0 : ℚ) + (sq (q1.x - q0.x) (q1.y - q0.y) - 0) *
      (((0 : ℕ) : ℚ) / (k : ℚ)) = 0 := by
    norm_num
  rw [htzero]
  have hA1 : lerpP 0 0 0 q0 q0 = ⟨q0.x, q0.y⟩ := lerpP_degenerate 0 0 q0 q0
  have hsne : sq (q1.x - q0.x) (q1.y - q0.y) - 0 ≠ 0 := by
    rw [sub_zero]
    exact ne_of_gt hs
  have hA2 : lerpP 0 0 (sq (q1.x - q0.x) (q1.y - q0.y)) q0 q1 = ⟨q0.x, q0.y⟩ :=
    lerpP_at_left hsne q0 q1
  rw [hA1, hA2]
  have hB1 : lerpP 0 0 (sq (q1.x - q0.x) (q1.y - q0.y))
      (⟨q0.x, q0.y⟩ : Point) (⟨q0.x, q0.y⟩ : Point) = ⟨q0.x, q0.y⟩ :=
    lerpP_at_left hsne _ _
  rw [hB1]
  have hC : lerpP 0 0 (sq (q1.x - q0.x) (q1.y - q0.y))
      (⟨q0.x, q0.y⟩ : Point)
      (lerpP 0 0
        (tj sq (sq (q1.x - q0.x) (q1.y - q0.y)) q1 p3)
        (⟨q0.x, q0.y⟩ : Point)
        (lerpP 0 (sq (q1.x - q0.x) (q1.y - q0.y))
          (tj sq (sq (q1.x - q0.x) (q1.y - q0.y)) q1 p3) q1 p3)) =
      ⟨q0.x, q0.y⟩ :=
    lerpP_at_left hsne _ _
  rw [hC]
  show (clamp01 q0.x, clamp01 q0.y) = (q0.x, q0.y)
  rw [clamp01_of_mem _ hb0 hb1, clamp01_of_mem _ hb2 hb3]

/-- C10: the first emitted sample equals the first control point exactly,
for every valid set, every `k ≥ 1`, and every knot function `sq` agreeing
with `Math.sqrt ∘ Math.hypot` on the properties `sq 0 0 = 0` and
positivity at distinct `x`. The spec promises this only for the last
sample. -/
theorem sample_first_exact (sq : ℚ → ℚ → ℚ) (points : List Point) (k : ℕ)
    (hv : Valid points) (hk : 1 ≤ k) (hsq0 : sq 0 0 = 0)
    (hsqpos : ∀ dx dy, dx ≠ 0 → 0 < sq dx dy) :
    (centripetalCatmullRomSpline sq points k).head? =
      some ((points.getD 0 default).x, (points.getD 0 default).y) := by
  obtain ⟨hb, hc, hh, hl, hlen⟩ := hv
  cases points with
  | nil => simp at hlen
  | cons q0 ps =>
    cases ps with
    | nil => simp at hlen
    | cons q1 rest =>
      have hcc : (q0 :: q1 :: rest).Chain' plt := hc
      have hq01 : q0.x < q1.x := (List.chain'_cons.1 hcc).1
      obtain ⟨hq0b1, hq0b2, hq0b3, hq0b4⟩ := hb q0 (List.mem_cons_self _ _)
      obtain ⟨k', rfl⟩ : ∃ k', k = k' + 1 := ⟨k - 1, by omega⟩
      unfold centripetalCatmullRomSpline
      rw [if_neg (by simp)]
      dsimp only
      have hn1 : (q0 :: q1 :: rest).length - 1 = rest.length + 1 := by
        simp
      rw [hn1, List.range_succ_eq_map rest.length, List.map_cons,
        List.flatten_cons, List.range_succ_eq_map k', List.map_cons]
      simp only [List.head?_append, List.head?_cons, Option.or_some,
        List.cons_append, List.getD_cons_zero, List.getD_cons_succ,
        Nat.zero_add]
      rw [segSample_zero sq hsq0 hsqpos q0 q1 _ (k' + 1) hq01 hq0b1 hq0b2
        hq0b3 hq0b4]

/-- Witness for C10 on the default two-point set with a concrete knot
function satisfying the two `sq` side conditions. -/
theorem sample_first_exact_witness :
    (centripetalCatmullRomSpline (fun dx dy => if dx = 0 then 0 else 1)
        defaultPoints 1).head? =
      some ((defaultPoints.getD 0 default).x, (defaultPoints.getD 0 default).y) :=
  sample_first_exact (fun dx dy => if dx = 0 then 0 else 1) defaultPoints 1
    (by decide) (by decide) (by decide)
    (fun dx dy h => by simp [h])

/-! ### The eight preset generators (lines 50–231)

The generator formulas use `Math.pow`, `Math.exp` and `Math.sqrt`, so they
are embedded over the exact reals (`Real.rpow`, `Real.exp`, `Real.sqrt`);
each generator is a pure function of `numPoints`, which renders the
determinism part of the claim. Points are `(x, y)` pairs of reals. -/

/-- `generateSimpleCurve`: linear from `(0,1)` to `(1,0)`. -/
noncomputable def generateSimpleCurve (numPoints : ℕ) : List (ℝ × ℝ) :=
  (List.range numPoints).map fun (i : ℕ) =>
    let t : ℝ := (i : ℝ) / ((numPoints : ℝ) - 1)
    (t, 1 - t)

/-- `generateKarrasCurve`. -/
noncomputable def generateKarrasCurve (numPoints : ℕ) : List (ℝ × ℝ) :=
  (List.range numPoints).map fun (i : ℕ) =>
    let sigma_min : ℝ := 0.1
    let sigma_max : ℝ := 10.0
    let rho : ℝ := 7.0
    let t : ℝ := 1 - (i : ℝ) / ((numPoints : ℝ) - 1)
    let sigma := sigma_max * (sigma_min / sigma_max) ^ (t * rho)
    let normalized :=
      1 - min 1 (max 0 ((sigma - sigma_min) / (sigma_max - sigma_min)))
    ((i : ℝ) / ((numPoints : ℝ) - 1), normalized)

/-- `generateExponentialCurve`. -/
noncomputable def generateExponentialCurve (numPoints : ℕ) : List (ℝ × ℝ) :=
  (List.range numPoints).map fun (i : ℕ) =>
    let sigma_min : ℝ := 0.1
    let sigma_max : ℝ := 10.0
    let t : ℝ := 1 - (i : ℝ) / ((numPoints : ℝ) - 1)
    let sigma := sigma_min ^ (1 - t) * sigma_max ^ t
    let normalized := min 1 (max 0 ((sigma - sigma_min) / (sigma_max - sigma_min)))
    ((i : ℝ) / ((numPoints : ℝ) - 1), normalized)

/-- `generateVPCurve` (the source also computes an unused
`alpha = Math.exp(-beta)`, omitted here). -/
noncomputable def generateVPCurve (numPoints : ℕ) : List (ℝ × ℝ) :=
  (List.range numPoints).map fun (i : ℕ) =>
    let beta_d : ℝ := 19.9
    let beta_min : ℝ := 0.1
    let beta_max : ℝ := 20.0
    let t : ℝ := 1 - (i : ℝ) / ((numPoints : ℝ) - 1)
    let beta := beta_min + t * (beta_max - beta_min)
    let alpha_cumprod := Real.exp (-(beta + 0.5 * t * t * beta_d))
    let sigma := Real.sqrt ((1 - alpha_cumprod) / alpha_cumprod)
    let max_sigma : ℝ := 10.0
    let normalized := min 1 (sigma / max_sigma)
    ((i : ℝ) / ((numPoints : ℝ) - 1), normalized)

/-- `generateVECurve` (its `t` runs with `x_pos`, not reversed). -/
noncomputable def generateVECurve (numPoints : ℕ) : List (ℝ × ℝ) :=
  (List.range numPoints).map fun (i : ℕ) =>
    let sigma_min : ℝ := 0.02
    let sigma_max : ℝ := 100.0
    let x_pos : ℝ := (i : ℝ) / ((numPoints : ℝ) - 1)
    let t : ℝ := x_pos
    let sigma := sigma_min ^ t * sigma_max ^ (1 - t)
    let normalized :=
      1 - min 1 (max 0 ((sigma - sigma_min) / (sigma_max - sigma_min)))
    (x_pos, normalized)

/-- `generateLinearCurve`. -/
noncomputable def generateLinearCurve (numPoints : ℕ) : List (ℝ × ℝ) :=
  (List.range numPoints).map fun (i : ℕ) =>
    let sigma_min : ℝ := 0.1
    let sigma_max : ℝ := 10.0
    let t : ℝ := 1 - (i : ℝ) / ((numPoints : ℝ) - 1)
    let sigma := sigma_min + t * (sigma_max - sigma_min)
    let normalized := min 1 (sigma / sigma_max)
    ((i : ℝ) / ((numPoints : ℝ) - 1), normalized)

/-- `generatePolyexponentialCurve` (`rho = 3.0`). -/
noncomputable def generatePolyexponentialCurve (numPoints : ℕ) : List (ℝ × ℝ) :=
  (List.range numPoints).map fun (i : ℕ) =>
    let sigma_min : ℝ := 0.1
    let sigma_max : ℝ := 10.0
    let rho : ℝ := 3.0
    let t : ℝ := 1 - (i : ℝ) / ((numPoints : ℝ) - 1)
    let sigma := sigma_min + (sigma_max - sigma_min) * t ^ (1.0 / rho)
    let normalized := min 1 (sigma / sigma_max)
    ((i : ℝ) / ((numPoints : ℝ) - 1), normalized)

/-- `generateDPMSolverFastCurve`: two-segment piecewise linear. -/
noncomputable def generateDPMSolverFastCurve (numPoints : ℕ) : List (ℝ × ℝ) :=
  (List.range numPoints).map fun (i : ℕ) =>
    let t : ℝ := (i : ℝ) / ((numPoints : ℝ) - 1)
    let noise_level : ℝ :=
      if t < 0.5 then 1 - 0.75 * (2 * t) else 0.25 * (2.0 - 2 * t)
    (t, noise_level)

/-- The shared shape contract of the claim: `numPoints` entries, the `i`-th
`x`-coordinate is exactly `i/(numPoints-1)`, and every `y` lies in `[0,1]`. -/
def PresetSpec (g : ℕ → List (ℝ × ℝ)) (n : ℕ) : Prop :=
  (g n).length = n ∧
    ∀ i < n, ((g n).getD i (0, 0)).1 = (i : ℝ) / ((n : ℝ) - 1) ∧
      0 ≤ ((g n).getD i (0, 0)).2 ∧ ((g n).getD i (0, 0)).2 ≤ 1

theorem getD_map_range {β : Type} (f : ℕ → β) {n i : ℕ} (h : i < n) (d : β) :
    ((List.range n).map f).getD i d = f i := by
  rw [List.getD_eq_getElem?_getD, List.getElem?_map, List.getElem?_range h]
  rfl

theorem t_unit_bounds {n i : ℕ} (hn : 2 ≤ n) (hi : i < n) :
    0 ≤ (i : ℝ) / ((n : ℝ) - 1) ∧ (i : ℝ) / ((n : ℝ) - 1) ≤ 1 := by
  have h2 : (2 : ℝ) ≤ (n : ℝ) := by exact_mod_cast hn
  have hpos : (0 : ℝ) < (n : ℝ) - 1 := by linarith
  constructor
  · exact div_nonneg (Nat.cast_nonneg i) (le_of_lt hpos)
  · rw [div_le_one hpos]
    have : (i : ℝ) + 1 ≤ (n : ℝ) := by exact_mod_cast hi
    linarith

theorem unitClamp_bounds (E : ℝ) : 0 ≤ min 1 (max 0 E) ∧ min 1 (max 0 E) ≤ 1 :=
  ⟨le_min (by norm_num) (le_max_left 0 E), min_le_left 1 _⟩

theorem one_sub_unitClamp_bounds (E : ℝ) :
    0 ≤ 1 - min 1 (max 0 E) ∧ 1 - min 1 (max 0 E) ≤ 1 := by
  obtain ⟨h0, h1⟩ := unitClamp_bounds E
  exact ⟨by linarith, by linarith⟩

theorem min_one_div_bounds {s c : ℝ} (hs : 0 ≤ s) (hc : 0 < c) :
    0 ≤ min 1 (s / c) ∧ min 1 (s / c) ≤ 1 :=
  ⟨le_min (by norm_num) (div_nonneg hs (le_of_lt hc)), min_le_left _ _⟩

theorem presetSpec_simple {n : ℕ} (hn : 2 ≤ n) :
    PresetSpec generateSimpleCurve n := by
  constructor
  · unfold generateSimpleCurve
    rw [List.length_map, List.length_range]
  · intro i hi
    unfold generateSimpleCurve
    rw [getD_map_range _ hi]
    dsimp only
    obtain ⟨ht0, ht1⟩ := t_unit_bounds hn hi
    exact ⟨rfl, by linarith, by linarith⟩

theorem presetSpec_karras {n : ℕ} (hn : 2 ≤ n) :
    PresetSpec generateKarrasCurve n := by
  constructor
  · unfold generateKarrasCurve
    rw [List.length_map, List.length_range]
  · intro i hi
    unfold generateKarrasCurve
    rw [getD_map_range _ hi]
    dsimp only
    exact ⟨rfl, (one_sub_unitClamp_bounds _).1, (one_sub_unitClamp_bounds _).2⟩

theorem presetSpec_exponential {n : ℕ} (hn : 2 ≤ n) :
    PresetSpec generateExponentialCurve n := by
  constructor
  · unfold generateExponentialCurve
    rw [List.length_map, List.length_range]
  · intro i hi
    unfold generateExponentialCurve
    rw [getD_map_range _ hi]
    dsimp only
    exact ⟨rfl, (unitClamp_bounds _).1, (unitClamp_bounds _).2⟩

theorem presetSpec_vp {n : ℕ} (hn : 2 ≤ n) : PresetSpec generateVPCurve n := by
  constructor
  · unfold generateVPCurve
    rw [List.length_map, List.length_range]
  · intro i hi
    unfold generateVPCurve
    rw [getD_map_range _ hi]
    dsimp only
    exact ⟨rfl, (min_one_div_bounds (Real.sqrt_nonneg _) (by norm_num)).1,
      (min_one_div_bounds (Real.sqrt_nonneg _) (by norm_num)).2⟩

theorem presetSpec_ve {n : ℕ} (hn : 2 ≤ n) : PresetSpec generateVECurve n := by
  constructor
  · unfold generateVECurve
    rw [List.length_map, List.length_range]
  · intro i hi
    unfold generateVECurve
    rw [getD_map_range _ hi]
    dsimp only
    exact ⟨rfl, (one_sub_unitClamp_bounds _).1, (one_sub_unitClamp_bounds _).2⟩

theorem presetSpec_linear {n : ℕ} (hn : 2 ≤ n) :
    PresetSpec generateLinearCurve n := by
  constructor
  · unfold generateLinearCurve
    rw [List.length_map, List.length_range]
  · intro i hi
    unfold generateLinearCurve
    rw [getD_map_range _ hi]
    dsimp only
    obtain ⟨ht0, ht1⟩ := t_unit_bounds hn hi
    have hs : (0 : ℝ) ≤ 0.1 + (1 - (i : ℝ) / ((n : ℝ) - 1)) * (10.0 - 0.1) := by
      nlinarith
    exact ⟨rfl, (min_one_div_bounds hs (by norm_num)).1,
      (min_one_div_bounds hs (by norm_num)).2⟩

theorem presetSpec_polyexponential {n : ℕ} (hn : 2 ≤ n) :
    PresetSpec generatePolyexponentialCurve n := by
  constructor
  · unfold generatePolyexponentialCurve
    rw [List.length_map, List.length_range]
  · intro i hi
    unfold generatePolyexponentialCurve
    rw [getD_map_range _ hi]
    dsimp only
    obtain ⟨ht0, ht1⟩ := t_unit_bounds hn hi
    have htn : (0 : ℝ) ≤ 1 - (i : ℝ) / ((n : ℝ) - 1) := by linarith
    have hpow : (0 : ℝ) ≤ (1 - (i : ℝ) / ((n : ℝ) - 1)) ^ ((1.0 : ℝ) / 3.0) :=
      Real.rpow_nonneg htn _
    have hs : (0 : ℝ) ≤
        0.1 + (10.0 - 0.1) * (1 - (i : ℝ) / ((n : ℝ) - 1)) ^ ((1.0 : ℝ) / 3.0) := by
      nlinarith
    exact ⟨rfl, (min_one_div_bounds hs (by norm_num)).1,
      (min_one_div_bounds hs (by norm_num)).2⟩

theorem presetSpec_dpm {n : ℕ} (hn : 2 ≤ n) :
    PresetSpec generateDPMSolverFastCurve n := by
  constructor
  · unfold generateDPMSolverFastCurve
    rw [List.length_map, List.length_range]
  · intro i hi
    unfold generateDPMSolverFastCurve
    rw [getD_map_range _ hi]
    dsimp only
    obtain ⟨ht0, ht1⟩ := t_unit_bounds hn hi
    refine ⟨rfl, ?_, ?_⟩
    · split
      · next h => linarith
      · next h => linarith
    · split
      · next h => linarith
      · next h => linarith

/-! ### Claim C9 -/

/-- C9: each of the eight preset generators, for every `numPoints ≥ 2`,
returns exactly `numPoints` points with `x_i = i/(numPoints-1)` and every
`y` in `[0,1]`; determinism is inherent in each being a pure function of
`numPoints`. -/
theorem preset_generators_spec (n : ℕ) (hn : 2 ≤ n) :
    PresetSpec generateSimpleCurve n ∧ PresetSpec generateKarrasCurve n ∧
      PresetSpec generateExponentialCurve n ∧ PresetSpec generateVPCurve n ∧
      PresetSpec generateVECurve n ∧ PresetSpec generateLinearCurve n ∧
      PresetSpec generatePolyexponentialCurve n ∧
      PresetSpec generateDPMSolverFastCurve n :=
  ⟨presetSpec_simple hn, presetSpec_karras hn, presetSpec_exponential hn,
    presetSpec_vp hn, presetSpec_ve hn, presetSpec_linear hn,
    presetSpec_polyexponential hn, presetSpec_dpm hn⟩

/-- Witness for C9 at `numPoints = 10` (the count used by the preset
selector). -/
theorem preset_generators_spec_witness :
    PresetSpec generateSimpleCurve 10 ∧ PresetSpec generateKarrasCurve 10 ∧
      PresetSpec generateExponentialCurve 10 ∧ PresetSpec generateVPCurve 10 ∧
      PresetSpec generateVECurve 10 ∧ PresetSpec generateLinearCurve 10 ∧
      PresetSpec generatePolyexponentialCurve 10 ∧
      PresetSpec generateDPMSolverFastCurve 10 :=
  preset_generators_spec 10 (by decide)

end SigmaEditor
